import Mathlib

/-!
Verification of the qobot probation-tracking bot (src/qobot.py) against its
natural-language specification.

The SQLite table `users_in_role (user TEXT, date TEXT)` created by `init_db`
is modelled as a list of rows.  `init_db` creates TWO unique indexes: one on
`user` and one on `date` (source lines 31-33); both are part of the model of
`add_user_to_db`, whose plain `INSERT` fails with an integrity error whenever
either index is violated.  Timestamps (`datetime()` strings at second
resolution, compared lexicographically, hence chronologically) are modelled
as natural numbers counting seconds; `datetime('now', '-7 day')` becomes
`now - 7 * 86400`.

Each periodic task of the bot is modelled as a pure function of the state it
reads: the ledger, the per-guild role fetch results, and the clock values
`datetime()` returns at each insert.
-/

namespace Qobot

/-- One row of the `users_in_role` table: the `user` and `date` columns. -/
structure Row where
  user : Nat
  date : Nat
deriving DecidableEq, Repr

/-- The `users_in_role` table. -/
abbrev Ledger := List Row

/-- The two integrity errors SQLite can raise on `INSERT`, one per unique
index created by `init_db` (lines 32 and 33 of the source). -/
inductive DbError where
  | uniqueUser
  | uniqueDate
deriving DecidableEq, Repr

/-- `remove_from_db` (source lines 38-41): `DELETE FROM users_in_role WHERE
user = ?`.  A `DELETE` never errors, so the result is a plain ledger. -/
def remove_from_db (db : Ledger) (u : Nat) : Ledger :=
  db.filter fun r => r.user != u

/-- `add_user_to_db` (source lines 44-47): `INSERT INTO users_in_role (user,
date) VALUES (?, datetime())`.  The insert is checked against the unique
index on `user` and the unique index on `date` from `init_db`; a violation
raises an integrity error and leaves the table unchanged.  `now` is the value
of `datetime()` at the moment of the insert. -/
def add_user_to_db (db : Ledger) (u : Nat) (now : Nat) : Except DbError Ledger :=
  if db.any fun r => r.user == u then Except.error DbError.uniqueUser
  else if db.any fun r => r.date == now then Except.error DbError.uniqueDate
  else Except.ok (db ++ [⟨u, now⟩])

/-- `SELECT user FROM users_in_role` (source line 54): the tracked users. -/
def users_in_db (db : Ledger) : List Nat :=
  db.map Row.user

/-- The add loop of `update_probation_users` (source lines 64-65): insert the
missing users one at a time; the `k`-th insert happens at time `clock (i+k)`.
Each insert commits individually, so on an integrity error the rows already
inserted persist and the error propagates: the result is the table state
together with the error, if any. -/
def runAdds (clock : Nat → Nat) : Ledger → List Nat → Nat → Ledger × Option DbError
  | db, [], _ => (db, none)
  | db, u :: rest, i =>
    match add_user_to_db db u (clock i) with
    | Except.ok db2 => runAdds clock db2 rest (i + 1)
    | Except.error e => (db, some e)

/-- `update_probation_users` (source lines 50-67): one reconciliation pass.
Reads the tracked users, computes `missing = live - tracked` and
`stale = tracked - live`, removes every stale user, then adds every missing
user.  `clock i` is the `datetime()` value of the `i`-th insert. -/
def update_probation_users (live : List Nat) (db : Ledger) (clock : Nat → Nat) :
    Ledger × Option DbError :=
  runAdds clock
    (((users_in_db db).filter fun u => u ∉ live).foldl remove_from_db db)
    (live.filter fun u => u ∉ users_in_db db) 0

/-- The waiting period of `get_ready_users`: `'-7 day'` in seconds. -/
def wait_seconds : Nat := 7 * 86400

/-- `get_ready_users` (source lines 70-81): `SELECT user FROM users_in_role
WHERE date < datetime('now', '-7 day')` — a strict comparison. -/
def get_ready_users (db : Ledger) (now : Nat) : List Nat :=
  (db.filter fun r => r.date < now - wait_seconds).map Row.user

/-- The outcome of `guild.fetch_role(role_id_monitored)` followed by reading
`role.members` in `scan_users`: either the member-id list of the monitored
role together with the clock for that guild's inserts, or `none` when the
fetch raises `discord.NotFound` or `discord.HTTPException`. -/
abbrev GuildFetch := Option (List Nat × (Nat → Nat))

/-- `ProbationCog.scan_users` (source lines 98-107): one reconciliation cycle
over all guilds, in order, against the single shared table.  A fetch failure
is caught by the `except` clause and that guild is skipped; a database
integrity error is NOT caught there and aborts the whole cycle. -/
def scan_users : List GuildFetch → Ledger → Ledger × Option DbError
  | [], db => (db, none)
  | none :: gs, db => scan_users gs db
  | some (live, clk) :: gs, db =>
    match update_probation_users live db clk with
    | (db2, none) => scan_users gs db2
    | (db2, some e) => (db2, some e)

/-- A guild member as the promotion loop sees it: its id and the ids of the
roles it holds. -/
structure Member where
  id : Nat
  roles : List Nat
deriving DecidableEq, Repr

/-- The outcome of fetching the monitored and validated roles in
`promote_users`: the monitored role's member list, or `none` when either
fetch raises. -/
abbrev GuildRoles := Option (List Member)

/-- The inner loop of `promote_users` (source lines 126-138) for one member:
`for user_id in ready_users: if member.id == user_id: ... remove_from_db`.
The role mutations on lines 132-133 (`member.add_roles(target_role)` and
`member.remove_roles(role)`) are commented out in the source (`# XXX Dry
run`), so the only effect is the ledger deletion. -/
def promote_member (ready : List Nat) (db : Ledger) (m : Member) : Ledger :=
  if m.id ∈ ready then remove_from_db db m.id else db

/-- The per-guild body of `promote_users` (source lines 120-141): a failed
role fetch skips the guild; otherwise every member of the monitored role is
run through the inner loop. -/
def promote_guild (ready : List Nat) (db : Ledger) : GuildRoles → Ledger
  | none => db
  | some ms => ms.foldl (promote_member ready) db

/-- `ProbationCog.promote_users` (source lines 113-141): one promotion cycle.
The eligible set is computed once; if it is empty the cycle ends; otherwise
each guild is processed in order.  The result is the post-state of the
guilds' member/role data and of the ledger; the member data is returned
unchanged because the role-mutation calls are commented out in the source. -/
def promote_users (guilds : List GuildRoles) (db : Ledger) (now : Nat) :
    List GuildRoles × Ledger :=
  if (get_ready_users db now).length < 1 then (guilds, db)
  else (guilds, guilds.foldl (promote_guild (get_ready_users db now)) db)

/-- A ledger mutation requested by the event listener. -/
inductive LedgerOp where
  | add (user : Nat)
  | remove (user : Nat)
deriving DecidableEq, Repr

/-- `on_member_update` (source lines 160-185), modelled as the sequence of
ledger operations it performs for a member with id `uid`.  The source first
returns early when `before.roles == after.roles` as lists, then forms the
set differences `added_roles` and `removed_roles` (modelled with `dedup`,
since Python sets collapse duplicates) and calls `add_user_to_db` for the
monitored role in `added_roles` and `remove_from_db` for the monitored role
in `removed_roles`, in that order. -/
def on_member_update (monitored uid : Nat) (beforeRoles afterRoles : List Nat) :
    List LedgerOp :=
  if beforeRoles = afterRoles then []
  else
    ((afterRoles.dedup.filter fun r => r ∉ beforeRoles).filter fun r => r = monitored).map
        (fun _ => LedgerOp.add uid) ++
      ((beforeRoles.dedup.filter fun r => r ∉ afterRoles).filter fun r => r = monitored).map
        (fun _ => LedgerOp.remove uid)

/-- Insert clock of the first demonstration guild. -/
def clockA (i : Nat) : Nat := 100 + i

/-- Insert clock of the second demonstration guild. -/
def clockB (i : Nat) : Nat := 200 + i

/-- A clock under which consecutive inserts land in the same second. -/
def zeroClock (_ : Nat) : Nat := 0

/-- A fresh, injective demonstration clock. -/
def wclock (i : Nat) : Nat := 100 + i

/- ------------------------------------------------------------------ -/
/- Helper lemmas about the ledger operations.                          -/
/- ------------------------------------------------------------------ -/

theorem mem_remove_from_db {r : Row} {db : Ledger} {u : Nat} :
    r ∈ remove_from_db db u ↔ r ∈ db ∧ r.user ≠ u := by
  simp [remove_from_db]

theorem mem_foldl_remove {r : Row} (S : List Nat) :
    ∀ db : Ledger, r ∈ S.foldl remove_from_db db ↔ r ∈ db ∧ r.user ∉ S := by
  induction S with
  | nil => intro db; simp
  | cons u S ih =>
    intro db
    rw [List.foldl_cons, ih, mem_remove_from_db]
    simp only [List.mem_cons, not_or]
    tauto

theorem mem_users_in_db {u : Nat} {db : Ledger} :
    u ∈ users_in_db db ↔ ∃ r ∈ db, r.user = u := by
  simp [users_in_db]

/- ------------------------------------------------------------------ -/
/- Claim theorems.                                                     -/
/- ------------------------------------------------------------------ -/

/-- Claim C1 (counterexample): the claim says a duplicate add "does not raise
an error"; but `add_user_to_db` is a plain `INSERT` against the unique index
on `user`, so adding user 1 when a record for user 1 already exists raises a
uniqueness integrity error. -/
theorem add_user_to_db_duplicate_cex :
    add_user_to_db [⟨1, 100⟩] 1 200 = Except.error DbError.uniqueUser := by
  rfl

/-- Claim C1 (amended): calling the ledger add operation when a record for
`u` already exists fails with a uniqueness-constraint error; the failed
insert leaves the table - hence the single existing record for `u` and its
original timestamp - unchanged. -/
theorem add_user_to_db_present_errors (db : Ledger) (u t : Nat)
    (h : ∃ r ∈ db, r.user = u) :
    ∃ e, add_user_to_db db u t = Except.error e := by
  refine ⟨DbError.uniqueUser, ?_⟩
  obtain ⟨r, hr, hru⟩ := h
  unfold add_user_to_db
  rw [if_pos]
  exact List.any_eq_true.mpr ⟨r, hr, by simp [hru]⟩

/-- Witness for `add_user_to_db_present_errors` at a concrete input. -/
theorem add_user_to_db_present_errors_witness :
    ∃ e, add_user_to_db [⟨1, 100⟩] 1 200 = Except.error e :=
  add_user_to_db_present_errors [⟨1, 100⟩] 1 200 ⟨⟨1, 100⟩, by simp, rfl⟩

/-- Claim C9: `remove_from_db` on a user with no record is a no-op: the
`DELETE` matches no row, raises no error, creates nothing, and returns the
ledger unchanged. -/
theorem remove_from_db_absent_noop (db : Ledger) (u : Nat)
    (h : ∀ r ∈ db, r.user ≠ u) :
    remove_from_db db u = db := by
  unfold remove_from_db
  rw [List.filter_eq_self]
  intro r hr
  simpa using h r hr

/-- Witness for `remove_from_db_absent_noop` at a concrete input. -/
theorem remove_from_db_absent_noop_witness :
    remove_from_db [⟨1, 5⟩] 2 = [⟨1, 5⟩] :=
  remove_from_db_absent_noop [⟨1, 5⟩] 2 (by intro r hr; simp at hr; simp [hr])

/-- Claim C10: the unique index `users_in_role_date_idx` on the `date`
column (source line 33) makes an insert fail with a uniqueness error whenever
some existing record - necessarily of a different user - carries the same
second-resolution `datetime()` value. -/
theorem add_user_to_db_date_collision (db : Ledger) (u t : Nat)
    (hu : ∀ r ∈ db, r.user ≠ u) (hd : ∃ r ∈ db, r.date = t) :
    add_user_to_db db u t = Except.error DbError.uniqueDate := by
  obtain ⟨r, hr, hrt⟩ := hd
  unfold add_user_to_db
  rw [if_neg, if_pos]
  · exact List.any_eq_true.mpr ⟨r, hr, by simp [hrt]⟩
  · simp only [List.any_eq_true, not_exists, not_and]
    intro r' hr'
    simpa using hu r' hr'

/-- Witness for `add_user_to_db_date_collision`: users 1 and 2 entering in
the same second cannot both be recorded. -/
theorem add_user_to_db_date_collision_witness :
    add_user_to_db [⟨1, 50⟩] 2 50 = Except.error DbError.uniqueDate :=
  add_user_to_db_date_collision [⟨1, 50⟩] 2 50
    (by intro r hr; simp at hr; simp [hr]) ⟨⟨1, 50⟩, by simp, rfl⟩

/-- Claim C6 (counterexample): the claim says every user with
`entered_at <= now() - wait_duration` is eligible, but the query uses a
strict `<`: a record entered exactly at the cutoff is not returned. -/
theorem get_ready_users_boundary_cex :
    get_ready_users [⟨1, 395200⟩] 1000000 = [] ∧ 395200 ≤ 1000000 - wait_seconds := by
  constructor
  · decide
  · decide

/-- Claim C6 (amended): the eligible-user query returns exactly the user ids
having a record with `entered_at` strictly older than `now()` minus the
7-day waiting period; every user whose `entered_at` is at or after the
cutoff is excluded. -/
theorem get_ready_users_strict_cutoff (db : Ledger) (now u : Nat) :
    u ∈ get_ready_users db now ↔
      ∃ r ∈ db, r.user = u ∧ r.date < now - wait_seconds := by
  simp only [get_ready_users, List.mem_map, List.mem_filter, decide_eq_true_eq]
  constructor
  · rintro ⟨r, ⟨hr, hd⟩, hu⟩
    exact ⟨r, hr, hu, hd⟩
  · rintro ⟨r, hr, hu, hd⟩
    exact ⟨r, ⟨hr, hd⟩, hu⟩

/-- Witness for `get_ready_users_strict_cutoff` at a concrete input. -/
theorem get_ready_users_strict_cutoff_witness :
    1 ∈ get_ready_users [⟨1, 0⟩] 1000000 :=
  (get_ready_users_strict_cutoff [⟨1, 0⟩] 1000000 1).mpr
    ⟨⟨1, 0⟩, by simp, rfl, by decide⟩

/-- Claim C3 (counterexample): with live set containing users 1 and 2 and an
empty ledger, both inserts of the reconciliation pass fall in the same
`datetime()` second; the second insert violates the unique index on `date`,
so the pass ends with user 1 recorded, user 2 missing, and an integrity
error - the ledger does not equal the live set. -/
theorem update_probation_users_same_second_cex :
    update_probation_users [1, 2] [] zeroClock
      = ([⟨1, 0⟩], some DbError.uniqueDate) := by
  decide

/-- Claim C2 (code_bug evaluation): `scan_users` reconciles every guild
against the one shared table.  With guild 1's monitored-role holders being
user 1 and guild 2's being user 2, the pass for guild 2 deletes user 1's
record, so after the full cycle the ledger holds only user 2 - not the union
of holders across served guilds as the claim requires. -/
theorem scan_users_multiguild_clobbers :
    scan_users [some ([1], clockA), some ([2], clockB)] []
      = ([⟨2, 200⟩], none) := by
  decide

/-- Claim C8: a failed role fetch for one guild (`discord.NotFound` or
`discord.HTTPException`) is caught by `scan_users`: that guild is skipped
with the ledger untouched for it, the error does not propagate, and the full
cycle behaves exactly as if the failing guild were absent - the preceding
and remaining guilds are processed as usual. -/
theorem scan_users_skips_failed_guild (xs ys : List GuildFetch) (db : Ledger) :
    scan_users (xs ++ none :: ys) db = scan_users (xs ++ ys) db := by
  induction xs generalizing db with
  | nil => rfl
  | cons g xs ih =>
    cases g with
    | none =>
      simpa [scan_users] using ih db
    | some p =>
      obtain ⟨live, clk⟩ := p
      simp only [List.cons_append, scan_users]
      rcases h : update_probation_users live db clk with ⟨db2, err⟩
      cases err with
      | none => exact ih db2
      | some e => rfl

theorem runAdds_spec (clock : Nat → Nat) (hinj : Function.Injective clock) :
    ∀ (missing : List Nat) (db : Ledger) (i : Nat),
      missing.Nodup →
      (∀ u ∈ missing, u ∉ users_in_db db) →
      (∀ j, i ≤ j → ∀ r ∈ db, clock j ≠ r.date) →
      (runAdds clock db missing i).2 = none ∧
        (∀ v, v ∈ users_in_db (runAdds clock db missing i).1 ↔
          v ∈ users_in_db db ∨ v ∈ missing) ∧
        (∀ r ∈ db, r ∈ (runAdds clock db missing i).1) := by
  intro missing
  induction missing with
  | nil =>
    intro db i _ _ _
    simp [runAdds]
  | cons u rest ih =>
    intro db i hnd hU hD
    have hu_db : u ∉ users_in_db db := hU u (by simp)
    have huser : (db.any fun r => r.user == u) = false := by
      rw [List.any_eq_false]
      intro r hr
      simp only [beq_iff_eq]
      exact fun hru => hu_db (mem_users_in_db.mpr ⟨r, hr, hru⟩)
    have hdate : (db.any fun r => r.date == clock i) = false := by
      rw [List.any_eq_false]
      intro r hr
      simp only [beq_iff_eq]
      exact fun hrd => hD i le_rfl r hr hrd.symm
    have hadd : add_user_to_db db u (clock i) = Except.ok (db ++ [⟨u, clock i⟩]) := by
      simp [add_user_to_db, huser, hdate]
    have hstep : runAdds clock db (u :: rest) i
        = runAdds clock (db ++ [⟨u, clock i⟩]) rest (i + 1) := by
      simp [runAdds, hadd]
    have husers2 : ∀ v, v ∈ users_in_db (db ++ [⟨u, clock i⟩]) ↔
        v ∈ users_in_db db ∨ v = u := by
      intro v
      simp [users_in_db, eq_comm]
    have hnd' : rest.Nodup := (List.nodup_cons.mp hnd).2
    have hurest : u ∉ rest := (List.nodup_cons.mp hnd).1
    have hU' : ∀ v ∈ rest, v ∉ users_in_db (db ++ [⟨u, clock i⟩]) := by
      intro v hv hc
      rcases (husers2 v).mp hc with h | rfl
      · exact hU v (List.mem_cons_of_mem _ hv) h
      · exact hurest hv
    have hD' : ∀ j, i + 1 ≤ j → ∀ r ∈ db ++ [⟨u, clock i⟩], clock j ≠ r.date := by
      intro j hj r hr
      rcases List.mem_append.mp hr with h | h
      · exact hD j (Nat.le_of_succ_le hj) r h
      · have hr' : r = ⟨u, clock i⟩ := by simpa using h
        subst hr'
        intro hc
        have : j = i := hinj hc
        omega
    obtain ⟨e1, e2, e3⟩ := ih (db ++ [⟨u, clock i⟩]) (i + 1) hnd' hU' hD'
    refine ⟨by rw [hstep]; exact e1, ?_, ?_⟩
    · intro v
      rw [hstep, e2 v, husers2 v]
      simp only [List.mem_cons]
      tauto
    · intro r hr
      rw [hstep]
      exact e3 r (List.mem_append_left _ hr)

/-- Claim C3 (amended): provided the `datetime()` values assigned to the
inserts of the pass are pairwise distinct and collide with no existing
record's timestamp, one reconciliation pass completes without error,
removes exactly the tracked users not in the live set, adds exactly the
live users not tracked, keeps the remaining records (and their timestamps)
unchanged, and leaves the tracked-user set equal to the live set.  (Without
that proviso the unique index on `date` can abort the pass, see the
counterexample.) -/
theorem update_probation_users_converges (live : List Nat) (db : Ledger)
    (clock : Nat → Nat) (hlive : live.Nodup) (hinj : Function.Injective clock)
    (hfresh : ∀ i, ∀ r ∈ db, clock i ≠ r.date) :
    (update_probation_users live db clock).2 = none ∧
      (∀ u, u ∈ users_in_db (update_probation_users live db clock).1 ↔ u ∈ live) ∧
      (∀ r ∈ db, r.user ∈ live → r ∈ (update_probation_users live db clock).1) := by
  have husers_db1 : ∀ v,
      v ∈ users_in_db (((users_in_db db).filter fun u => u ∉ live).foldl
        remove_from_db db) ↔ v ∈ users_in_db db ∧ v ∈ live := by
    intro v
    rw [mem_users_in_db]
    constructor
    · rintro ⟨r, hr, rfl⟩
      rw [mem_foldl_remove] at hr
      have h1 : r.user ∈ users_in_db db := mem_users_in_db.mpr ⟨r, hr.1, rfl⟩
      refine ⟨h1, ?_⟩
      by_contra hlive'
      exact hr.2 (by simp only [List.mem_filter, decide_eq_true_eq]; exact ⟨h1, hlive'⟩)
    · rintro ⟨hv, hvl⟩
      obtain ⟨r, hr, hru⟩ := mem_users_in_db.mp hv
      refine ⟨r, ?_, hru⟩
      rw [mem_foldl_remove]
      refine ⟨hr, ?_⟩
      simp only [List.mem_filter, decide_eq_true_eq, not_and, not_not]
      intro _
      exact hru ▸ hvl
  have hmemdb1 : ∀ r, r ∈ (((users_in_db db).filter fun u => u ∉ live).foldl
      remove_from_db db) → r ∈ db := by
    intro r hr
    exact (mem_foldl_remove _ _ |>.mp hr).1
  have hndM : (live.filter fun u => u ∉ users_in_db db).Nodup := hlive.filter _
  have hU : ∀ v ∈ live.filter fun u => u ∉ users_in_db db,
      v ∉ users_in_db (((users_in_db db).filter fun u => u ∉ live).foldl
        remove_from_db db) := by
    intro v hv hc
    rw [List.mem_filter, decide_eq_true_eq] at hv
    exact hv.2 ((husers_db1 v).mp hc).1
  have hD : ∀ j, 0 ≤ j → ∀ r ∈ (((users_in_db db).filter fun u => u ∉ live).foldl
      remove_from_db db), clock j ≠ r.date := by
    intro j _ r hr
    exact hfresh j r (hmemdb1 r hr)
  obtain ⟨e1, e2, e3⟩ := runAdds_spec clock hinj
    (live.filter fun u => u ∉ users_in_db db)
    (((users_in_db db).filter fun u => u ∉ live).foldl remove_from_db db)
    0 hndM hU hD
  refine ⟨e1, ?_, ?_⟩
  · intro u
    rw [show update_probation_users live db clock = runAdds clock
      (((users_in_db db).filter fun u => u ∉ live).foldl remove_from_db db)
      (live.filter fun u => u ∉ users_in_db db) 0 from rfl]
    rw [e2 u, husers_db1 u, List.mem_filter, decide_eq_true_eq]
    constructor
    · rintro (⟨_, h⟩ | ⟨h, _⟩) <;> exact h
    · intro hu
      by_cases hdb : u ∈ users_in_db db
      · exact Or.inl ⟨hdb, hu⟩
      · exact Or.inr ⟨hu, hdb⟩
  · intro r hr hru
    rw [show update_probation_users live db clock = runAdds clock
      (((users_in_db db).filter fun u => u ∉ live).foldl remove_from_db db)
      (live.filter fun u => u ∉ users_in_db db) 0 from rfl]
    apply e3
    rw [mem_foldl_remove]
    refine ⟨hr, ?_⟩
    simp only [List.mem_filter, decide_eq_true_eq, not_and, not_not]
    intro _
    exact hru

/-- Witness for `update_probation_users_converges`: the spec's own scenario,
live holders 1, 2, 3 against ledger entries for 2, 3, 4, with fresh insert
timestamps. -/
theorem update_probation_users_converges_witness :
    (update_probation_users [1, 2, 3] [⟨2, 10⟩, ⟨3, 11⟩, ⟨4, 12⟩] wclock).2 = none ∧
      (1 ∈ users_in_db
        (update_probation_users [1, 2, 3] [⟨2, 10⟩, ⟨3, 11⟩, ⟨4, 12⟩] wclock).1 ↔
        1 ∈ [1, 2, 3]) := by
  have hinj : Function.Injective wclock := by
    intro a b hab
    simpa [wclock] using hab
  have hfresh : ∀ i, ∀ r ∈ ([⟨2, 10⟩, ⟨3, 11⟩, ⟨4, 12⟩] : Ledger),
      wclock i ≠ r.date := by
    intro i r hr
    simp only [List.mem_cons, List.not_mem_nil, or_false] at hr
    rcases hr with h | h | h <;> subst h <;> simp [wclock] <;> omega
  have h := update_probation_users_converges [1, 2, 3] [⟨2, 10⟩, ⟨3, 11⟩, ⟨4, 12⟩]
    wclock (by decide) hinj hfresh
  exact ⟨h.1, h.2.1 1⟩

theorem filter_eq_single {l : List Nat} (h : l.Nodup) {x : Nat} (hx : x ∈ l) :
    l.filter (fun r => r = x) = [x] := by
  induction l with
  | nil => cases hx
  | cons a t ih =>
    rw [List.nodup_cons] at h
    rcases List.mem_cons.mp hx with rfl | hx'
    · rw [List.filter_cons_of_pos (by simp)]
      have ht : t.filter (fun r => r = x) = [] := by
        rw [List.filter_eq_nil_iff]
        intro b hb
        simp only [decide_eq_true_eq]
        exact fun hba => h.1 (hba ▸ hb)
      rw [ht]
    · rw [List.filter_cons_of_neg]
      · exact ih h.2 hx'
      · simp only [decide_eq_true_eq]
        intro hax
        exact h.1 (hax ▸ hx')

theorem filter_eq_nil_of_not_mem {l : List Nat} {x : Nat} (hx : x ∉ l) :
    l.filter (fun r => r = x) = [] := by
  rw [List.filter_eq_nil_iff]
  intro b hb
  simp only [decide_eq_true_eq]
  exact fun hbx => hx (hbx ▸ hb)

/-- Claim C5: the event listener's contract.  If the monitored role is in the
after role set but not the before set, the listener performs exactly one
ledger operation, the add of the member; in the reverse transition, exactly
the remove; and when the before and after role sets are identical (as sets,
even if the lists are ordered differently), no ledger operation occurs. -/
theorem on_member_update_ops (monitored uid : Nat) (b a : List Nat) :
    ((monitored ∈ a ∧ monitored ∉ b) →
        on_member_update monitored uid b a = [LedgerOp.add uid]) ∧
      ((monitored ∈ b ∧ monitored ∉ a) →
        on_member_update monitored uid b a = [LedgerOp.remove uid]) ∧
      ((∀ r, r ∈ b ↔ r ∈ a) → on_member_update monitored uid b a = []) := by
  refine ⟨?_, ?_, ?_⟩
  · rintro ⟨hin, hout⟩
    have hne : b ≠ a := fun h => hout (h ▸ hin)
    unfold on_member_update
    rw [if_neg hne]
    have h1 : (a.dedup.filter fun r => r ∉ b).filter (fun r => r = monitored)
        = [monitored] := by
      apply filter_eq_single (a.nodup_dedup.filter _)
      simp only [List.mem_filter, List.mem_dedup, decide_eq_true_eq]
      exact ⟨hin, hout⟩
    have h2 : (b.dedup.filter fun r => r ∉ a).filter (fun r => r = monitored)
        = [] := by
      apply filter_eq_nil_of_not_mem
      simp only [List.mem_filter, List.mem_dedup, decide_eq_true_eq, not_and]
      exact fun hmb => absurd hin
    rw [h1, h2]
    rfl
  · rintro ⟨hin, hout⟩
    have hne : b ≠ a := fun h => hout (h ▸ hin)
    unfold on_member_update
    rw [if_neg hne]
    have h1 : (a.dedup.filter fun r => r ∉ b).filter (fun r => r = monitored)
        = [] := by
      apply filter_eq_nil_of_not_mem
      simp only [List.mem_filter, List.mem_dedup, decide_eq_true_eq, not_and]
      exact fun hma => absurd hin
    have h2 : (b.dedup.filter fun r => r ∉ a).filter (fun r => r = monitored)
        = [monitored] := by
      apply filter_eq_single (b.nodup_dedup.filter _)
      simp only [List.mem_filter, List.mem_dedup, decide_eq_true_eq]
      exact ⟨hin, hout⟩
    rw [h1, h2]
    rfl
  · intro hset
    by_cases hba : b = a
    · unfold on_member_update
      rw [if_pos hba]
    · unfold on_member_update
      rw [if_neg hba]
      have h1 : (a.dedup.filter fun r => r ∉ b) = [] := by
        rw [List.filter_eq_nil_iff]
        intro x hx
        simp only [decide_eq_true_eq, not_not]
        exact (hset x).mpr (List.mem_dedup.mp hx)
      have h2 : (b.dedup.filter fun r => r ∉ a) = [] := by
        rw [List.filter_eq_nil_iff]
        intro x hx
        simp only [decide_eq_true_eq, not_not]
        exact (hset x).mp (List.mem_dedup.mp hx)
      rw [h1, h2]
      rfl

/-- Witness for `on_member_update_ops` at the spec's concrete transitions. -/
theorem on_member_update_ops_witness :
    on_member_update 5 9 [1] [1, 5] = [LedgerOp.add 9] ∧
      on_member_update 5 9 [1, 5] [1] = [LedgerOp.remove 9] ∧
      on_member_update 5 9 [1, 5] [5, 1] = [] :=
  ⟨(on_member_update_ops 5 9 [1] [1, 5]).1 ⟨by decide, by decide⟩,
   (on_member_update_ops 5 9 [1, 5] [1]).2.1 ⟨by decide, by decide⟩,
   (on_member_update_ops 5 9 [1, 5] [5, 1]).2.2 (by intro r; simp; tauto)⟩

theorem promote_member_mem {r : Row} {ready : List Nat} {db : Ledger}
    {m : Member} (h : r ∈ promote_member ready db m) : r ∈ db := by
  unfold promote_member at h
  split at h
  · exact (mem_remove_from_db.mp h).1
  · exact h

theorem users_absent_promote_member {u : Nat} {ready : List Nat} {db : Ledger}
    {m : Member} (h : u ∉ users_in_db db) :
    u ∉ users_in_db (promote_member ready db m) := by
  intro hc
  obtain ⟨r, hr, hru⟩ := mem_users_in_db.mp hc
  exact h (mem_users_in_db.mpr ⟨r, promote_member_mem hr, hru⟩)

theorem users_absent_promote_fold {u : Nat} {ready : List Nat}
    (ms : List Member) :
    ∀ db : Ledger, u ∉ users_in_db db →
      u ∉ users_in_db (ms.foldl (promote_member ready) db) := by
  induction ms with
  | nil => exact fun db h => h
  | cons m ms ih =>
    intro db h
    rw [List.foldl_cons]
    exact ih _ (users_absent_promote_member h)

theorem users_absent_promote_guild {u : Nat} {ready : List Nat}
    {g : GuildRoles} {db : Ledger} (h : u ∉ users_in_db db) :
    u ∉ users_in_db (promote_guild ready db g) := by
  cases g with
  | none => exact h
  | some ms => exact users_absent_promote_fold ms db h

theorem users_absent_promote_guilds {u : Nat} {ready : List Nat}
    (gs : List GuildRoles) :
    ∀ db : Ledger, u ∉ users_in_db db →
      u ∉ users_in_db (gs.foldl (promote_guild ready) db) := by
  induction gs with
  | nil => exact fun db h => h
  | cons g gs ih =>
    intro db h
    rw [List.foldl_cons]
    exact ih _ (users_absent_promote_guild h)

theorem promote_fold_kills {u : Nat} {ready : List Nat} (hready : u ∈ ready)
    (ms : List Member) :
    ∀ db : Ledger, (∃ m ∈ ms, m.id = u) →
      u ∉ users_in_db (ms.foldl (promote_member ready) db) := by
  induction ms with
  | nil => rintro db ⟨m, hm, _⟩; cases hm
  | cons m0 ms ih =>
    rintro db ⟨m, hm, hmu⟩
    rw [List.foldl_cons]
    rcases List.mem_cons.mp hm with rfl | hm'
    · apply users_absent_promote_fold
      unfold promote_member
      rw [if_pos (hmu ▸ hready)]
      intro hc
      obtain ⟨r, hr, hru⟩ := mem_users_in_db.mp hc
      rw [mem_remove_from_db] at hr
      exact hr.2 (hru.trans hmu.symm)
    · exact ih _ ⟨m, hm', hmu⟩

/-- Claim C4 (amended): for every user in the eligible set who currently
holds the monitored role in some successfully fetched guild, the Promotion
Scheduler issues no role mutation (the add/remove role calls are a
hardcoded dry run, commented out at source lines 131-133, so the guilds'
member and role data is returned unchanged) and removes the user's record
from the ledger; afterward the ledger no longer contains that user. -/
theorem promote_users_dry_run (xs ys : List GuildRoles) (ms : List Member)
    (u : Nat) (db : Ledger) (now : Nat) (hm : ∃ m ∈ ms, m.id = u)
    (hready : u ∈ get_ready_users db now) :
    (promote_users (xs ++ some ms :: ys) db now).1 = xs ++ some ms :: ys ∧
      u ∉ users_in_db (promote_users (xs ++ some ms :: ys) db now).2 := by
  have hlen : ¬ (get_ready_users db now).length < 1 := by
    have := List.length_pos.mpr (List.ne_nil_of_mem hready)
    omega
  unfold promote_users
  rw [if_neg hlen]
  refine ⟨rfl, ?_⟩
  rw [List.foldl_append, List.foldl_cons]
  apply users_absent_promote_guilds
  exact promote_fold_kills hready ms _ hm

/-- Witness for `promote_users_dry_run`: the spec's scenario, user 42 with
an 8-day-old record still holding the monitored role. -/
theorem promote_users_dry_run_witness :
    (promote_users [some [⟨42, [7]⟩]] [⟨42, 0⟩] 1000000).1 = [some [⟨42, [7]⟩]] ∧
      42 ∉ users_in_db (promote_users [some [⟨42, [7]⟩]] [⟨42, 0⟩] 1000000).2 :=
  promote_users_dry_run [] [] [⟨42, [7]⟩] 42 [⟨42, 0⟩] 1000000
    ⟨⟨42, [7]⟩, by simp, rfl⟩ (by decide)

/-- Claim C4 (counterexample): user 42 is eligible and holds the monitored
role 7, yet after the promotion cycle the member's role list is unchanged -
the validated role 8 was never added and the monitored role 7 never removed,
because the role-swap calls are commented out in the source; only the ledger
record was deleted. -/
theorem promote_users_no_role_swap_cex :
    promote_users [some [⟨42, [7]⟩]] [⟨42, 0⟩] 1000000
        = ([some [⟨42, [7]⟩]], []) ∧ (8 : Nat) ∉ [(7 : Nat)] := by
  constructor
  · rfl
  · decide

theorem filter_user_remove {db : Ledger} {x u : Nat} (h : x ≠ u) :
    (remove_from_db db x).filter (fun r => r.user = u)
      = db.filter (fun r => r.user = u) := by
  unfold remove_from_db
  rw [List.filter_filter]
  apply List.filter_congr
  intro r _
  by_cases hru : r.user = u
  · simp [hru, Ne.symm h]
  · simp [hru]

theorem promote_member_frame {ready : List Nat} {db : Ledger} {m : Member}
    {u : Nat} (h : m.id ≠ u) :
    (promote_member ready db m).filter (fun r => r.user = u)
      = db.filter (fun r => r.user = u) := by
  unfold promote_member
  split
  · exact filter_user_remove h
  · rfl

theorem promote_fold_frame {ready : List Nat} {u : Nat} (ms : List Member)
    (h : ∀ m ∈ ms, m.id ≠ u) :
    ∀ db : Ledger, (ms.foldl (promote_member ready) db).filter
        (fun r => r.user = u) = db.filter (fun r => r.user = u) := by
  induction ms with
  | nil => exact fun db => rfl
  | cons m ms ih =>
    intro db
    rw [List.foldl_cons, ih (fun m' hm' => h m' (List.mem_cons_of_mem _ hm')),
      promote_member_frame (h m (by simp))]

theorem promote_guilds_frame {ready : List Nat} {u : Nat}
    (gs : List GuildRoles) (h : ∀ l, some l ∈ gs → ∀ m ∈ l, m.id ≠ u) :
    ∀ db : Ledger, (gs.foldl (promote_guild ready) db).filter
        (fun r => r.user = u) = db.filter (fun r => r.user = u) := by
  induction gs with
  | nil => exact fun db => rfl
  | cons g gs ih =>
    intro db
    rw [List.foldl_cons, ih (fun l hl => h l (List.mem_cons_of_mem _ hl))]
    cases g with
    | none => rfl
    | some l => exact promote_fold_frame l (h l (by simp)) db

/-- Claim C7: a user eligible by timestamp who appears in no fetched
member list of the monitored role is untouched by the promotion cycle: no
role mutation is issued (the guild data is returned unchanged) and the
user's ledger records are exactly as before. -/
theorem promote_users_skips_non_holder (guilds : List GuildRoles)
    (db : Ledger) (now u : Nat) (hready : u ∈ get_ready_users db now)
    (hno : ∀ l, some l ∈ guilds → ∀ m ∈ l, m.id ≠ u) :
    (promote_users guilds db now).1 = guilds ∧
      (promote_users guilds db now).2.filter (fun r => r.user = u)
        = db.filter (fun r => r.user = u) := by
  unfold promote_users
  by_cases hlen : (get_ready_users db now).length < 1
  · rw [if_pos hlen]
    exact ⟨rfl, rfl⟩
  · rw [if_neg hlen]
    exact ⟨rfl, promote_guilds_frame guilds hno db⟩

/-- Witness for `promote_users_skips_non_holder`: users 42 and 7 are
eligible; user 42 holds the role in no guild (one guild has only member 5,
the other fails to fetch), so 42's record survives the cycle. -/
theorem promote_users_skips_non_holder_witness :
    (promote_users [some [⟨5, []⟩], none] [⟨42, 0⟩, ⟨7, 1⟩] 1000000).1
        = [some [⟨5, []⟩], none] ∧
      (promote_users [some [⟨5, []⟩], none] [⟨42, 0⟩, ⟨7, 1⟩] 1000000).2.filter
          (fun r => r.user = 42)
        = ([⟨42, 0⟩, ⟨7, 1⟩] : Ledger).filter (fun r => r.user = 42) :=
  promote_users_skips_non_holder [some [⟨5, []⟩], none] [⟨42, 0⟩, ⟨7, 1⟩]
    1000000 42 (by decide)
    (by
      intro l hl m hm
      simp only [List.mem_cons, List.not_mem_nil, or_false,
        Option.some.injEq, reduceCtorEq] at hl
      subst hl
      simp only [List.mem_cons, List.not_mem_nil, or_false] at hm
      subst hm
      decide)

end Qobot
